import Mathlib

/-!
Verification of the cover-art candidate scoring and selection core of
`mpv_music_wrapper.py` (select_best_cover, choose_bucket1, choose_bucket2,
analyze_candidates helpers, tokenization helpers).

The Python code is shallowly embedded: machine arithmetic on candidate
dimensions is exact (`Nat`/`Int`), and the two floating-point quantities of
the source (`width / height` in `is_squarish` and the album-overlap ratio)
are modelled as exact rationals; for the pixel dimensions and token counts
appearing anywhere in this development the double-precision evaluation of
the source and the rational evaluation agree.  Python's stable `sorted(...)[0]`
on a key tuple is embedded as a left fold that keeps the earliest element
whose key is minimal (`selectMin` below), which computes the same winner.
-/

namespace MpvMusic

/-! ### Constants of the source (module-level configuration) -/

def AUDIO_EXTS : List String :=
  ["flac", "mp3", "ogg", "opus", "m4a", "alac", "wav", "aiff", "wv"]

def PREFERRED_IMAGE_KEYWORDS : List String := ["cover", "front", "folder"]

def SQUARISH_PCT : ℚ := 13

def ALBUM_OVERLAP_PCT : ℚ := 50

def NON_FRONT_IMAGE_KEYWORDS : List String :=
  ["back", "tray", "cd", "disc", "inlay", "inlet", "insert", "booklet",
   "book", "spine", "rear", "inside", "tracklisting"]

def TINY_FRONT_AREA : Nat := 90000

def AREA_THRESHOLD_PCT : Nat := 75

/-! ### Tokenization helpers (normalize_name_tokens / clean_album_tokens) -/

/-- First camel-case pass of `normalize_name_tokens`:
`re.sub(r"([a-z])([A-Z])", r"\x7b1 \x7b2", ...)` (with backreference braces),
i.e. a space is inserted between each adjacent lower/upper pair. -/
def camelSplitOne : List Char → List Char
  | [] => []
  | [a] => [a]
  | a :: b :: rest =>
    if a.isLower && b.isUpper then a :: ' ' :: camelSplitOne (b :: rest)
    else a :: camelSplitOne (b :: rest)

/-- Second camel-case pass: `re.sub(r"([A-Z])([A-Z][a-z])", ...)`, i.e. a space
is inserted between two uppers followed by a lower. -/
def camelSplitTwo : List Char → List Char
  | a :: b :: c :: rest =>
    if a.isUpper && b.isUpper && c.isLower then a :: ' ' :: camelSplitTwo (b :: c :: rest)
    else a :: camelSplitTwo (b :: c :: rest)
  | l => l

/-- Splitting a character list on spaces, discarding empty pieces: the
composition of `re.sub(r"[^0-9A-Za-z]+", " ", ...)` (runs already mapped to
single chars here) with Python's `str.split()`. -/
def splitSpacesAux : List Char → List Char → List (List Char)
  | [], acc => if acc.isEmpty then [] else [acc.reverse]
  | c :: rest, acc =>
    if c == ' ' then
      if acc.isEmpty then splitSpacesAux rest []
      else acc.reverse :: splitSpacesAux rest []
    else splitSpacesAux rest (c :: acc)

def splitSpaces (cs : List Char) : List (List Char) := splitSpacesAux cs []

/-- `normalize_name_tokens`: split camel-case boundaries, map non-alphanumeric
runs to spaces, split on whitespace, lower-case every token. -/
def normalize_name_tokens (name : String) : List String :=
  let s1 := camelSplitTwo (camelSplitOne name.data)
  let s2 := s1.map (fun c => if c.isAlphanum then c else ' ')
  (splitSpaces s2).map (fun t => String.mk (t.map Char.toLower))

/-- Python `str.isdigit` restricted to ASCII digits: nonempty and all digits. -/
def isDigitStr (t : String) : Bool := !t.data.isEmpty && t.data.all Char.isDigit

/-- The keep-condition of the loop inside `clean_album_tokens`: a token is
kept unless it is empty, purely numeric, of length at most 2, or a known
audio extension. -/
def keepTok (t : String) : Bool :=
  !(t == "") && !isDigitStr t && !decide (t.length ≤ 2) && !AUDIO_EXTS.contains t

/-- `clean_album_tokens`: normalize, then discard empty, numeric, short and
audio-extension tokens. -/
def clean_album_tokens (name : String) : List String :=
  (normalize_name_tokens name).filter keepTok

/-- `token_overlap_score`: how many of `base`'s (nonempty) tokens occur in
`target`. -/
def token_overlap_score (base target : List String) : Nat :=
  base.countP (fun t => !(t == "") && target.contains t)

/-- `album_overlap_ratio`: overlap count normalized by the album token count,
capped at 1; 0 when there are no album tokens. -/
def album_overlap_ratio (base album : List String) : ℚ :=
  if album.isEmpty then 0
  else min 1 ((token_overlap_score base album : ℚ) / (album.length : ℚ))

/-- The overlap gate `(overlap * 100.0) >= ALBUM_OVERLAP_PCT` of
`analyze_candidates`, with the positive denominator `len(album_tokens)`
cleared (the equivalence with the rational form is `overlap_pct_ok_iff`
below); false when there are no album tokens, as `0 >= 50` is. -/
def overlap_pct_ok (base album : List String) : Bool :=
  if album.isEmpty then false
  else decide (50 * album.length ≤ 100 * token_overlap_score base album)

/-- `extract_trailing_int`: the value of the last run of digits anywhere in
the name (the regex `(\d+)` with a no-more-digits lookahead), or none. -/
def digitsVal (ds : List Char) : Nat :=
  ds.foldl (fun n c => n * 10 + (c.toNat - 48)) 0

def extract_trailing_int (name : String) : Option Nat :=
  let r := name.data.reverse
  let ds := (r.dropWhile (fun c => !c.isDigit)).takeWhile (fun c => c.isDigit)
  if ds.isEmpty then none else some (digitsVal ds.reverse)

/-! ### Geometry predicates -/

/-- `is_squarish`: aspect ratio within ±13% of 1:1.  The source compares
`(1 - pct) <= width/height <= (1 + pct)` with `pct = SQUARISH_PCT/100`;
here the positive denominator `height` is cleared, giving the equivalent
integer comparison (the equivalence with the rational form is
`is_squarish_iff_ratio` below). -/
def is_squarish (width height : Nat) : Bool :=
  if width == 0 || height == 0 then false
  else decide ((100 - 13) * height ≤ 100 * width ∧ 100 * width ≤ (100 + 13) * height)

/-- `is_portraitish`: strictly taller than wide. -/
def is_portraitish (width height : Nat) : Bool :=
  if width == 0 || height == 0 then false else decide (width < height)

/-! ### Keyword / non-front analysis helpers -/

/-- `has_blocking_non_front`: some token is a disqualifying word that is not
itself an album token. -/
def has_blocking_non_front (tokens album_tokens : List String) : Bool :=
  tokens.any (fun t => NON_FRONT_IMAGE_KEYWORDS.contains t && !album_tokens.contains t)

/-- `keyword_rank`: count of preferred keywords present, and the least index
of a matched keyword (sentinel `length + 1` when none matched). -/
def keyword_rank (tokens : List String) : Nat × Nat :=
  (PREFERRED_IMAGE_KEYWORDS.enum).foldl
    (fun acc p => if tokens.contains p.2 then (acc.1 + 1, min acc.2 p.1) else acc)
    (0, PREFERRED_IMAGE_KEYWORDS.length + 1)

/-! ### Filename tokenization as performed by analyze_candidates -/

/-- Python `str.lower()` restricted to ASCII (all strings this development
evaluates are ASCII). -/
def strToLower (s : String) : String := String.mk (s.data.map Char.toLower)

/-- Everything before the last dot of the (already lower-cased) filename:
`lower.rsplit(".", 1)[0]`. -/
def baseNoExt (s : String) : String :=
  match (s.data.reverse).dropWhile (fun c => !(c == '.')) with
  | [] => s
  | _ :: pre => String.mk pre.reverse

/-- The filename tokens `analyze_candidates` computes:
`normalize_name_tokens(f.name.lower().rsplit(".", 1)[0])`. -/
def base_tokens_of (fname : String) : List String :=
  normalize_name_tokens (baseNoExt (strToLower fname))

/-- The bucket assignment of `analyze_candidates`, parameterized by the
filename token list it starts from: bucket 1 iff the shape is plausible
front art, no blocking non-front token is present, and the keyword/overlap
gate passes. -/
def bucket_from_tokens (base_tokens : List String) (w h : Nat)
    (album_tokens : List String) : Nat :=
  let kr := keyword_rank base_tokens
  let non_front := has_blocking_non_front base_tokens album_tokens
  let front_ok := decide (0 < kr.1) || overlap_pct_ok base_tokens album_tokens
  let shape_ok := is_squarish w h || is_portraitish w h
  if shape_ok && !non_front && front_ok then 1 else 2

/-- The bucket `analyze_candidates` assigns to a file named `fname` of
dimensions `w × h` under album tokens `album_tokens`. -/
def analyze_bucket (fname : String) (w h : Nat) (album_tokens : List String) : Nat :=
  bucket_from_tokens (base_tokens_of fname) w h album_tokens

/-- The filename tokenization as the spec's words describe it ("the same way
as album tokens", i.e. with the numeric/short/audio-extension discard),
declared only to be compared against `base_tokens_of`. -/
def specFilenameTokens (fname : String) : List String :=
  clean_album_tokens (baseNoExt (strToLower fname))

/-- The bucket assignment the spec's words describe, starting from
`specFilenameTokens`; compared against `analyze_bucket`. -/
def specAnalyzeBucket (fname : String) (w h : Nat) (album_tokens : List String) : Nat :=
  bucket_from_tokens (specFilenameTokens fname) w h album_tokens

/-! ### The candidate record -/

/-- `CoverCandidate` of the source, with its `path` (an opaque filesystem
handle never consulted by selection) omitted; all fields selection and
reporting read are present. -/
structure CoverCandidate where
  width : Nat
  height : Nat
  area : Nat
  size_bytes : Nat
  pref_kw_count : Nat
  name_token_score : Nat
  has_non_front : Bool
  bucket : Nat
  kw_rank : Nat
  scope_rank : Nat
  scope : String
  src_type : String
  name : String
  album_tokens : List String
  rel_display : String
  overlap_ratio : ℚ
  is_embedded : Bool
deriving DecidableEq, Repr

/-! ### Sort keys and the stable minimum -/

/-- `trailing_key` inside `select_best_cover`: the trailing integer of the
name, with a missing integer sorting after every present one (float("inf")
in the source, encoded as a lexicographic (flag, value) pair). -/
def trailing_key (name : String) : Nat × Nat :=
  match extract_trailing_int name with
  | some n => (0, n)
  | none => (1, 0)

/-- A string as its list of code points, ordered lexicographically exactly as
Python orders strings. -/
def nameKey (s : String) : List Nat := s.data.map Char.toNat

/-- The `choose_bucket1` sort key `(-area, scope_rank, kw_rank,
trailing_key(name), name)`. -/
def key1 (c : CoverCandidate) :=
  toLex ((-(c.area : Int)),
    toLex (c.scope_rank,
      toLex (c.kw_rank,
        toLex (toLex (trailing_key c.name), nameKey c.name))))

/-- The `choose_bucket2` key when squarish areas are close:
`(scope_rank, -name_token_score, kw_rank, trailing_key(name), name)`. -/
def key2close (c : CoverCandidate) :=
  toLex (c.scope_rank,
    toLex ((-(c.name_token_score : Int)),
      toLex (c.kw_rank,
        toLex (toLex (trailing_key c.name), nameKey c.name))))

/-- The general `choose_bucket2` key
`(scope_rank, -area, -name_token_score, kw_rank, trailing_key(name), name)`. -/
def key2far (c : CoverCandidate) :=
  toLex (c.scope_rank,
    toLex ((-(c.area : Int)),
      toLex ((-(c.name_token_score : Int)),
        toLex (c.kw_rank,
          toLex (toLex (trailing_key c.name), nameKey c.name)))))

/-- The first element of the input achieving the minimal key: exactly the
head of Python's stable `sorted(lst, key=...)`. -/
def pickMin {α K : Type _} [LinearOrder K] (key : α → K) (c : α) (rest : List α) : α :=
  rest.foldl (fun best d => if key d < key best then d else best) c

def selectMin {α K : Type _} [LinearOrder K] (key : α → K) : List α → Option α
  | [] => none
  | c :: rest => some (pickMin key c rest)

/-- Python's `max(...)` over the areas of a nonempty candidate list. -/
def maxAreaOf (l : List CoverCandidate) : Nat :=
  match l.map (fun c => c.area) with
  | [] => 0
  | x :: r => r.foldl max x

/-- Python's `min(...)` over the areas of a nonempty candidate list. -/
def minAreaOf (l : List CoverCandidate) : Nat :=
  match l.map (fun c => c.area) with
  | [] => 0
  | x :: r => r.foldl min x

/-! ### The selector -/

/-- `choose_bucket1`: stable sort by `key1`, first element (none if empty). -/
def choose_bucket1 (lst : List CoverCandidate) : Option CoverCandidate :=
  selectMin key1 lst

/-- `choose_bucket2`: among squarish candidates when any exist, ignoring area
when the squarish areas are within the closeness threshold; otherwise over
the whole list by the general key. -/
def choose_bucket2 (lst : List CoverCandidate) : Option CoverCandidate :=
  if lst.isEmpty then none
  else
    let squarish := lst.filter (fun c => is_squarish c.width c.height)
    if squarish.isEmpty then selectMin key2far lst
    else
      let max_area := maxAreaOf squarish
      let min_area := minAreaOf squarish
      if decide (min_area * 100 ≥ max_area * AREA_THRESHOLD_PCT) then
        selectMin key2close squarish
      else selectMin key2far squarish

def bucket1Of (candidates : List CoverCandidate) : List CoverCandidate :=
  candidates.filter (fun c => c.bucket == 1)

def bucket2Of (candidates : List CoverCandidate) : List CoverCandidate :=
  candidates.filter (fun c => c.bucket != 1)

def nonTinyBucket2Of (candidates : List CoverCandidate) : List CoverCandidate :=
  (bucket2Of candidates).filter (fun c => decide (c.area ≥ TINY_FRONT_AREA))

/-- The winner `select_best_cover` computes: bucket 1 if it is non-empty,
except that when every bucket-1 candidate is tiny and a non-tiny bucket-2
candidate exists, the non-tiny bucket-2 subset is used instead. -/
def bestOf (candidates : List CoverCandidate) : Option CoverCandidate :=
  let bucket1 := bucket1Of candidates
  if bucket1.isEmpty then choose_bucket2 (bucket2Of candidates)
  else
    if bucket1.all (fun c => decide (c.area < TINY_FRONT_AREA))
        && !(nonTinyBucket2Of candidates).isEmpty then
      choose_bucket2 (nonTinyBucket2Of candidates)
    else choose_bucket1 bucket1

/-- Substring containment (`"EMBEDDED" in line` of the source). -/
def listContainsSub (needle : List Char) : List Char → Bool
  | [] => needle.isEmpty
  | c :: rest => needle.isPrefixOf (c :: rest) || listContainsSub needle rest

def strContainsSub (hay needle : String) : Bool :=
  listContainsSub needle.data hay.data

/-- `line.startswith(pre)` of the source. -/
def strStartsWith (s pre : String) : Bool :=
  pre.data.isPrefixOf s.data

/-- The winner's pipe-delimited metadata summary. -/
def metaOf (b : CoverCandidate) : String :=
  b.src_type ++ "|" ++ toString b.width ++ "|" ++ toString b.height ++ "|"
    ++ toString b.area ++ "|" ++ toString (b.pref_kw_count + b.name_token_score)
    ++ "|" ++ toString b.size_bytes

/-- The marker test of the report loop: the winner's line is recognized by
the EMBEDDED substring (for an embedded winner) or by its `path=<rel>` head. -/
def markedFor (b : CoverCandidate) (line : String) : Bool :=
  (b.is_embedded && strContainsSub line "EMBEDDED")
    || strStartsWith line ("path=" ++ b.rel_display)

/-- The formatted debug report for winner `b`. -/
def detailOf (b : CoverCandidate) (detail_lines : List String) : String :=
  let formatted := detail_lines.map (fun line =>
    if markedFor b line then "[*] " ++ line else "[ ] " ++ line)
  if formatted.isEmpty then "[ ] no images found"
  else String.intercalate "\n" formatted

/-- `select_best_cover`: the winner, its metadata summary, and the formatted
report. -/
def select_best_cover (candidates : List CoverCandidate)
    (detail_lines : List String) : Option CoverCandidate × String × String :=
  if candidates.isEmpty then (none, "", "[ ] no images found")
  else
    match bestOf candidates with
    | none => (none, "", "[ ] no images found")
    | some b => (some b, metaOf b, detailOf b detail_lines)

/-- Name-injectivity on a candidate list: no two distinct candidates share a
filename. Every sort key of the selector ends in the name, so this makes all
three keys injective. -/
abbrev NameInj (l : List CoverCandidate) : Prop :=
  ∀ a ∈ l, ∀ b ∈ l, a.name = b.name → a = b

/-- A debug line as `analyze_candidates` formats it: a `path=<rel_display>`
head followed by the rest of the line (` res=...` etc.). -/
def detailLineOf (rest : CoverCandidate → String) (c : CoverCandidate) : String :=
  "path=" ++ c.rel_display ++ rest c

/-! ### Concrete candidates used to instantiate the theorems
(the field layout mirrors the repository's unit-test constructor). -/

def mkCand (nm : String) (w h sz bkt kwc nts kwr srank : Nat) (emb : Bool)
    (styp rel : String) : CoverCandidate :=
  { width := w, height := h, area := w * h, size_bytes := sz, pref_kw_count := kwc,
    name_token_score := nts, has_non_front := false, bucket := bkt, kw_rank := kwr,
    scope_rank := srank, scope := if emb then "embedded" else "album-root",
    src_type := styp, name := nm, album_tokens := [], rel_display := rel,
    overlap_ratio := 0, is_embedded := emb }

/-- A tiny labeled bucket-1 candidate (area 10000 < tiny floor). -/
def tinyFront : CoverCandidate :=
  mkCand "cover.png" 100 100 0 1 1 0 0 1 false "external" "cover.png"

/-- A large unlabeled bucket-2 candidate (area 1000000 ≥ tiny floor). -/
def bigBack : CoverCandidate :=
  mkCand "back.png" 1000 1000 0 2 0 0 999 1 false "external" "back.png"

/-- The winning bucket-1 candidate of the Grease scenario. -/
def greaseFront : CoverCandidate :=
  mkCand "Covers/front.png" 6452 3172 115800000 1 1 0 1 1 false "external" "Covers/front.png"

/-- The Grease candidate list of
`test_embedded_should_not_beat_huge_front_when_both_bucket1`, in its original
order. -/
def greaseList : List CoverCandidate :=
  [ mkCand "Covers/back.png" 6452 3172 116400000 3 0 0 999 1 false "external" "Covers/back.png",
    mkCand "Covers/book1.png" 6396 3212 111400000 3 0 0 999 1 false "external" "Covers/book1.png",
    mkCand "Covers/book10.png" 6396 3212 63800000 3 0 0 999 1 false "external" "Covers/book10.png",
    mkCand "Covers/book11.png" 6396 3212 62800000 3 0 0 999 1 false "external" "Covers/book11.png",
    mkCand "Covers/book12.png" 6396 3212 69600000 3 0 0 999 1 false "external" "Covers/book12.png",
    mkCand "Covers/book13.png" 6396 3212 71000000 3 0 0 999 1 false "external" "Covers/book13.png",
    mkCand "Covers/book14.png" 6396 3212 70600000 3 0 0 999 1 false "external" "Covers/book14.png",
    mkCand "Covers/book2.png" 6396 3212 72900000 3 0 0 999 1 false "external" "Covers/book2.png",
    mkCand "Covers/book3.png" 6396 3212 70400000 3 0 0 999 1 false "external" "Covers/book3.png",
    mkCand "Covers/book4.png" 6396 3212 72400000 3 0 0 999 1 false "external" "Covers/book4.png",
    mkCand "Covers/book5.png" 6396 3212 69000000 3 0 0 999 1 false "external" "Covers/book5.png",
    mkCand "Covers/book6.png" 6396 3212 65100000 3 0 0 999 1 false "external" "Covers/book6.png",
    mkCand "Covers/book7.png" 6396 3212 70600000 3 0 0 999 1 false "external" "Covers/book7.png",
    mkCand "Covers/book8.png" 6396 3212 65200000 3 0 0 999 1 false "external" "Covers/book8.png",
    mkCand "Covers/book9.png" 6396 3212 63200000 3 0 0 999 1 false "external" "Covers/book9.png",
    mkCand "Covers/cd1.png" 2884 2832 42700000 3 0 0 999 1 false "external" "Covers/cd1.png",
    mkCand "Covers/cd2.png" 2848 2856 42800000 1 0 0 999 1 false "external" "Covers/cd2.png",
    greaseFront,
    mkCand "Covers/inlay back.png" 2952 3020 44600000 3 0 0 999 1 false "external" "Covers/inlay back.png",
    mkCand "Covers/inlay front.png" 2976 3024 46700000 1 1 0 1 1 false "external" "Covers/inlay front.png",
    mkCand "Covers/obi.png" 4260 3136 39900000 3 0 0 999 1 false "external" "Covers/obi.png",
    mkCand "embedded-cover.png" 500 500 400000 1 1 0 0 0 true "embedded" "EMBEDDED" ]

/-- Squarish bucket-2 candidate: smaller area, higher name-token overlap. -/
def sqSmallRich : CoverCandidate :=
  mkCand "artgood.png" 900 900 0 2 0 5 999 1 false "external" "artgood.png"

/-- Squarish bucket-2 candidate: larger area, lower name-token overlap. -/
def sqBigPoor : CoverCandidate :=
  mkCand "bigger.png" 1000 1000 0 2 0 2 999 1 false "external" "bigger.png"

/-- Two distinct candidates sharing every sort-key field (same name, area,
scope, ranks) while differing in width/height and display path. -/
def dupX : CoverCandidate :=
  mkCand "a.jpg" 1000 8 0 2 0 0 999 1 false "external" "x/a.jpg"

def dupY : CoverCandidate :=
  mkCand "a.jpg" 8 1000 0 2 0 0 999 1 false "external" "y/a.jpg"

/-- The four bucket-2 candidates of `test_cover_selection_green_nuns`. -/
def gn1 : CoverCandidate :=
  mkCand "image1.jpeg" 500 500 0 2 0 0 999 1 false "external" "image1.jpeg"

def gn2 : CoverCandidate :=
  mkCand "image2.jpeg" 641 500 0 2 0 0 999 1 false "external" "image2.jpeg"

def gn3 : CoverCandidate :=
  mkCand "image3.jpeg" 1009 500 0 2 0 0 999 1 false "external" "image3.jpeg"

def gn4 : CoverCandidate :=
  mkCand "image4.jpeg" 507 500 0 2 0 0 999 1 false "external" "image4.jpeg"

/-- Report-marking counterexample: the winner displays as `a.jpg`, while a
second candidate found inside a directory literally named `a.jpg` displays as
`a.jpg/b.png`, whose debug line also starts with `path=a.jpg`. -/
def cexWin : CoverCandidate :=
  mkCand "a.jpg" 1000 8 0 2 0 0 999 2 false "external" "a.jpg"

def cexSub : CoverCandidate :=
  mkCand "b.png" 10 8 0 2 0 0 999 2 false "external" "a.jpg/b.png"

def cexLineA : String :=
  "path=a.jpg res=1000x8 area=0.0MP size=0.0MB bucket=2 scope=album-root kw=0 overlap=0.00"

def cexLineB : String :=
  "path=a.jpg/b.png res=10x8 area=0.0MP size=0.0MB bucket=2 scope=album-root kw=0 overlap=0.00"

/-- Candidates with collision-free display paths for the report round-trip. -/
def repA : CoverCandidate :=
  mkCand "a.png" 1000 1000 0 2 0 0 999 1 false "external" "a.png"

def repB : CoverCandidate :=
  mkCand "b.png" 10 10 0 2 0 0 999 1 false "external" "b.png"

/-- A concrete line-tail generator for the report round-trip instance. -/
def c9restA : CoverCandidate → String :=
  fun c => " res=" ++ toString c.width ++ "x" ++ toString c.height

/-! ### Properties of the stable minimum -/

section SelectMinLemmas

variable {α K : Type _} [LinearOrder K] (key : α → K)

theorem pickMin_step (c d : α) (rest : List α) :
    pickMin key c (d :: rest) = pickMin key (if key d < key c then d else c) rest := by
  simp only [pickMin, List.foldl_cons]

theorem pickMin_mem (c : α) (rest : List α) : pickMin key c rest ∈ c :: rest := by
  induction rest generalizing c with
  | nil => simp [pickMin]
  | cons d rest ih =>
    rw [pickMin_step]
    rcases List.mem_cons.1 (ih (if key d < key c then d else c)) with h | h
    · rw [h]
      split <;> simp
    · simp [h]

theorem pickMin_le (c : α) (rest : List α) :
    ∀ x ∈ c :: rest, key (pickMin key c rest) ≤ key x := by
  induction rest generalizing c with
  | nil =>
    intro x hx
    rcases List.mem_cons.1 hx with h | h
    · rw [h]; simp [pickMin]
    · simp at h
  | cons d rest ih =>
    intro x hx
    rw [pickMin_step]
    have hc : key (if key d < key c then d else c) ≤ key c := by
      split <;> [exact le_of_lt (by assumption); exact le_refl _]
    have hd : key (if key d < key c then d else c) ≤ key d := by
      split <;> [exact le_refl _; exact le_of_not_lt (by assumption)]
    rcases List.mem_cons.1 hx with h | h
    · rw [h]
      exact le_trans (ih _ _ (List.mem_cons_self _ _)) hc
    rcases List.mem_cons.1 h with h1 | h1
    · rw [h1]
      exact le_trans (ih _ _ (List.mem_cons_self _ _)) hd
    · exact ih _ x (List.mem_cons_of_mem _ h1)

theorem selectMin_eq_none_iff (l : List α) : selectMin key l = none ↔ l = [] := by
  cases l <;> simp [selectMin]

theorem selectMin_spec (l : List α) (h : l ≠ []) :
    ∃ a, selectMin key l = some a ∧ a ∈ l ∧ ∀ b ∈ l, key a ≤ key b := by
  cases l with
  | nil => exact absurd rfl h
  | cons c rest =>
    exact ⟨pickMin key c rest, rfl, pickMin_mem key c rest, pickMin_le key c rest⟩

theorem selectMin_eq_some (l : List α) (a : α) (h : selectMin key l = some a) :
    a ∈ l ∧ ∀ b ∈ l, key a ≤ key b := by
  cases l with
  | nil => simp [selectMin] at h
  | cons c rest =>
    have : pickMin key c rest = a := by simpa [selectMin] using h
    exact this ▸ ⟨pickMin_mem key c rest, pickMin_le key c rest⟩

/-- Permutation invariance of the stable minimum under key-injectivity on the
list: the minimal-key element is unique, so input order cannot matter. -/
theorem selectMin_perm {l₁ l₂ : List α} (p : l₁.Perm l₂)
    (inj : ∀ a ∈ l₁, ∀ b ∈ l₁, key a = key b → a = b) :
    selectMin key l₁ = selectMin key l₂ := by
  cases l₁ with
  | nil =>
    rw [p.symm.eq_nil]
  | cons c rest =>
    have h₂ : l₂ ≠ [] := by
      intro hnil
      exact absurd (hnil ▸ p).eq_nil (by simp)
    obtain ⟨a, ha, hamem, hale⟩ := selectMin_spec key (c :: rest) (by simp)
    obtain ⟨b, hb, hbmem, hble⟩ := selectMin_spec key l₂ h₂
    have hb₁ : b ∈ c :: rest := p.mem_iff.mpr hbmem
    have ha₂ : a ∈ l₂ := p.mem_iff.mp hamem
    have : key a = key b := le_antisymm (hale b hb₁) (hble a ha₂)
    rw [ha, hb, inj a hamem b hb₁ this]

end SelectMinLemmas

/-! ### Properties of the area extrema -/

theorem foldl_max_mem (x : Nat) (r : List Nat) : r.foldl max x ∈ x :: r := by
  induction r generalizing x with
  | nil => simp
  | cons y r ih =>
    rw [List.foldl_cons]
    rcases List.mem_cons.1 (ih (max x y)) with h | h
    · rw [h]
      rcases max_choice x y with h1 | h1 <;> simp [h1]
    · simp [h]

theorem foldl_max_ge (x : Nat) (r : List Nat) : ∀ y ∈ x :: r, y ≤ r.foldl max x := by
  induction r generalizing x with
  | nil =>
    intro y hy
    rcases List.mem_cons.1 hy with h | h
    · simp [h]
    · simp at h
  | cons z r ih =>
    intro y hy
    rw [List.foldl_cons]
    have hbase : max x z ≤ r.foldl max (max x z) :=
      ih (max x z) _ (List.mem_cons_self _ _)
    rcases List.mem_cons.1 hy with h | h
    · rw [h]; exact le_trans (le_max_left x z) hbase
    rcases List.mem_cons.1 h with h1 | h1
    · rw [h1]; exact le_trans (le_max_right x z) hbase
    · exact ih (max x z) y (List.mem_cons_of_mem _ h1)

theorem foldl_min_mem (x : Nat) (r : List Nat) : r.foldl min x ∈ x :: r := by
  induction r generalizing x with
  | nil => simp
  | cons y r ih =>
    rw [List.foldl_cons]
    rcases List.mem_cons.1 (ih (min x y)) with h | h
    · rw [h]
      rcases min_choice x y with h1 | h1 <;> simp [h1]
    · simp [h]

theorem foldl_min_le (x : Nat) (r : List Nat) : ∀ y ∈ x :: r, r.foldl min x ≤ y := by
  induction r generalizing x with
  | nil =>
    intro y hy
    rcases List.mem_cons.1 hy with h | h
    · simp [h]
    · simp at h
  | cons z r ih =>
    intro y hy
    rw [List.foldl_cons]
    have hbase : r.foldl min (min x z) ≤ min x z :=
      ih (min x z) _ (List.mem_cons_self _ _)
    rcases List.mem_cons.1 hy with h | h
    · rw [h]; exact le_trans hbase (min_le_left x z)
    rcases List.mem_cons.1 h with h1 | h1
    · rw [h1]; exact le_trans hbase (min_le_right x z)
    · exact ih (min x z) y (List.mem_cons_of_mem _ h1)

theorem maxAreaOf_spec (l : List CoverCandidate) (h : l ≠ []) :
    maxAreaOf l ∈ l.map (fun c => c.area) ∧
      ∀ y ∈ l.map (fun c => c.area), y ≤ maxAreaOf l := by
  cases l with
  | nil => exact absurd rfl h
  | cons c rest =>
    constructor
    · exact foldl_max_mem _ _
    · exact foldl_max_ge _ _

theorem minAreaOf_spec (l : List CoverCandidate) (h : l ≠ []) :
    minAreaOf l ∈ l.map (fun c => c.area) ∧
      ∀ y ∈ l.map (fun c => c.area), minAreaOf l ≤ y := by
  cases l with
  | nil => exact absurd rfl h
  | cons c rest =>
    constructor
    · exact foldl_min_mem _ _
    · exact foldl_min_le _ _

theorem maxAreaOf_perm {l₁ l₂ : List CoverCandidate} (p : l₁.Perm l₂) :
    maxAreaOf l₁ = maxAreaOf l₂ := by
  cases l₁ with
  | nil =>
    rw [p.symm.eq_nil]
  | cons c rest =>
    have h₂ : l₂ ≠ [] := by
      intro hnil
      exact absurd (hnil ▸ p).eq_nil (by simp)
    have pm := p.map (fun c => c.area)
    obtain ⟨m₁, g₁⟩ := maxAreaOf_spec (c :: rest) (by simp)
    obtain ⟨m₂, g₂⟩ := maxAreaOf_spec l₂ h₂
    exact le_antisymm (g₂ _ (pm.mem_iff.mp m₁)) (g₁ _ (pm.mem_iff.mpr m₂))

theorem minAreaOf_perm {l₁ l₂ : List CoverCandidate} (p : l₁.Perm l₂) :
    minAreaOf l₁ = minAreaOf l₂ := by
  cases l₁ with
  | nil =>
    rw [p.symm.eq_nil]
  | cons c rest =>
    have h₂ : l₂ ≠ [] := by
      intro hnil
      exact absurd (hnil ▸ p).eq_nil (by simp)
    have pm := p.map (fun c => c.area)
    obtain ⟨m₁, g₁⟩ := minAreaOf_spec (c :: rest) (by simp)
    obtain ⟨m₂, g₂⟩ := minAreaOf_spec l₂ h₂
    exact le_antisymm (g₁ _ (pm.mem_iff.mpr m₂)) (g₂ _ (pm.mem_iff.mp m₁))

/-! ### Emptiness, `all` and key-injectivity transfer across permutations -/

theorem perm_isEmpty {α : Type _} {l₁ l₂ : List α} (p : l₁.Perm l₂) :
    l₁.isEmpty = l₂.isEmpty := by
  cases l₁ with
  | nil => rw [p.symm.eq_nil]
  | cons a t =>
    cases l₂ with
    | nil => exact absurd p.eq_nil (by simp)
    | cons b s => rfl

theorem perm_all {α : Type _} {l₁ l₂ : List α} (p : l₁.Perm l₂) (f : α → Bool) :
    l₁.all f = l₂.all f := by
  by_cases h : ∀ x ∈ l₁, f x = true
  · rw [List.all_eq_true.mpr (fun x hx => h x hx),
      List.all_eq_true.mpr (fun x hx => h x (p.mem_iff.mpr hx))]
  · have h₂ : ¬ ∀ x ∈ l₂, f x = true :=
      fun hh => h (fun x hx => hh x (p.mem_iff.mp hx))
    rw [Bool.eq_false_iff.mpr (fun hh => h (fun x hx => List.all_eq_true.mp hh x hx)),
      Bool.eq_false_iff.mpr (fun hh => h₂ (fun x hx => List.all_eq_true.mp hh x hx))]

theorem char_toNat_injective : Function.Injective Char.toNat := by
  intro c d h
  exact Char.eq_of_val_eq (UInt32.toNat.inj h)

theorem nameKey_inj {a b : String} (h : nameKey a = nameKey b) : a = b := by
  have hd : a.data = b.data :=
    List.map_injective_iff.mpr char_toNat_injective h
  cases a
  cases b
  exact congrArg String.mk (by simpa using hd)

theorem nameInj_of_sublist {l l' : List CoverCandidate} (h : NameInj l)
    (hsub : ∀ a ∈ l', a ∈ l) : NameInj l' :=
  fun a ha b hb => h a (hsub a ha) b (hsub b hb)

theorem key1_eq_name {a b : CoverCandidate} (h : key1 a = key1 b) :
    a.name = b.name := by
  simp only [key1, toLex_inj, Prod.mk.injEq] at h
  exact nameKey_inj h.2.2.2.2

theorem key2close_eq_name {a b : CoverCandidate} (h : key2close a = key2close b) :
    a.name = b.name := by
  simp only [key2close, toLex_inj, Prod.mk.injEq] at h
  exact nameKey_inj h.2.2.2.2

theorem key2far_eq_name {a b : CoverCandidate} (h : key2far a = key2far b) :
    a.name = b.name := by
  simp only [key2far, toLex_inj, Prod.mk.injEq] at h
  exact nameKey_inj h.2.2.2.2.2

/-! ### Specifications of choose_bucket1 / choose_bucket2 -/

theorem choose_bucket1_spec (l : List CoverCandidate) (h : l ≠ []) :
    ∃ w, choose_bucket1 l = some w ∧ w ∈ l ∧ ∀ c ∈ l, key1 w ≤ key1 c := by
  simpa [choose_bucket1] using selectMin_spec key1 l h

/-- `choose_bucket2` on a nonempty list returns a member of it. -/
theorem choose_bucket2_mem (l : List CoverCandidate) (h : l ≠ []) :
    ∃ w, choose_bucket2 l = some w ∧ w ∈ l := by
  simp only [choose_bucket2]
  rw [if_neg (by simpa [List.isEmpty_iff] using h)]
  by_cases hsq : (l.filter (fun c => is_squarish c.width c.height)).isEmpty
  · rw [if_pos hsq]
    obtain ⟨w, hw, hmem, _⟩ := selectMin_spec key2far l h
    exact ⟨w, hw, hmem⟩
  · rw [if_neg hsq]
    have hne : l.filter (fun c => is_squarish c.width c.height) ≠ [] := by
      simpa [List.isEmpty_iff] using hsq
    by_cases hc : decide (minAreaOf (l.filter (fun c => is_squarish c.width c.height)) * 100 ≥
        maxAreaOf (l.filter (fun c => is_squarish c.width c.height)) * AREA_THRESHOLD_PCT) = true
    · rw [if_pos hc]
      obtain ⟨w, hw, hmem, _⟩ := selectMin_spec key2close _ hne
      exact ⟨w, hw, List.mem_of_mem_filter hmem⟩
    · rw [if_neg hc]
      obtain ⟨w, hw, hmem, _⟩ := selectMin_spec key2far _ hne
      exact ⟨w, hw, List.mem_of_mem_filter hmem⟩

/-- The close-areas branch of `choose_bucket2`: when squarish candidates
exist and their areas are within the threshold, the winner is the squarish
candidate minimal under the area-free key. -/
theorem choose_bucket2_close_spec (l : List CoverCandidate)
    (h1 : l.filter (fun c => is_squarish c.width c.height) ≠ [])
    (h2 : minAreaOf (l.filter (fun c => is_squarish c.width c.height)) * 100 ≥
      maxAreaOf (l.filter (fun c => is_squarish c.width c.height)) * AREA_THRESHOLD_PCT) :
    ∃ w, choose_bucket2 l = some w ∧
      w ∈ l.filter (fun c => is_squarish c.width c.height) ∧
      ∀ c ∈ l.filter (fun c => is_squarish c.width c.height), key2close w ≤ key2close c := by
  have hl : l ≠ [] := by
    intro hnil
    rw [hnil] at h1
    exact h1 rfl
  simp only [choose_bucket2]
  rw [if_neg (by simpa [List.isEmpty_iff] using hl)]
  rw [if_neg (by simpa [List.isEmpty_iff] using h1)]
  rw [if_pos (decide_eq_true h2)]
  exact selectMin_spec key2close _ h1

/-! ### Permutation invariance of the selector -/

theorem choose_bucket1_perm {l₁ l₂ : List CoverCandidate} (p : l₁.Perm l₂)
    (h : NameInj l₁) : choose_bucket1 l₁ = choose_bucket1 l₂ :=
  selectMin_perm key1 p
    (fun a ha b hb hk => h a ha b hb (key1_eq_name hk))

theorem choose_bucket2_perm {l₁ l₂ : List CoverCandidate} (p : l₁.Perm l₂)
    (h : NameInj l₁) : choose_bucket2 l₁ = choose_bucket2 l₂ := by
  simp only [choose_bucket2]
  rw [perm_isEmpty p]
  by_cases he : l₂.isEmpty
  · rw [if_pos he, if_pos he]
  rw [if_neg he, if_neg he]
  have pf := p.filter (fun c => is_squarish c.width c.height)
  have hinj2 : ∀ a ∈ l₁.filter (fun c => is_squarish c.width c.height),
      ∀ b ∈ l₁.filter (fun c => is_squarish c.width c.height), a.name = b.name → a = b :=
    nameInj_of_sublist h (fun a ha => List.mem_of_mem_filter ha)
  rw [perm_isEmpty pf, maxAreaOf_perm pf, minAreaOf_perm pf]
  by_cases hsq : (l₂.filter (fun c => is_squarish c.width c.height)).isEmpty
  · rw [if_pos hsq, if_pos hsq]
    exact selectMin_perm key2far p (fun a ha b hb hk => h a ha b hb (key2far_eq_name hk))
  rw [if_neg hsq, if_neg hsq]
  by_cases hc : decide (minAreaOf (l₂.filter (fun c => is_squarish c.width c.height)) * 100 ≥
      maxAreaOf (l₂.filter (fun c => is_squarish c.width c.height)) * AREA_THRESHOLD_PCT) = true
  · rw [if_pos hc, if_pos hc]
    exact selectMin_perm key2close pf
      (fun a ha b hb hk => hinj2 a ha b hb (key2close_eq_name hk))
  · rw [if_neg hc, if_neg hc]
    exact selectMin_perm key2far pf
      (fun a ha b hb hk => hinj2 a ha b hb (key2far_eq_name hk))

theorem bestOf_perm {l₁ l₂ : List CoverCandidate} (p : l₁.Perm l₂)
    (h : NameInj l₁) : bestOf l₁ = bestOf l₂ := by
  simp only [bestOf, bucket1Of, bucket2Of, nonTinyBucket2Of]
  have p1 := p.filter (fun c => c.bucket == 1)
  have p2 := p.filter (fun c => c.bucket != 1)
  have pnt := p2.filter (fun c => decide (c.area ≥ TINY_FRONT_AREA))
  rw [perm_isEmpty p1]
  by_cases he : (l₂.filter (fun c => c.bucket == 1)).isEmpty
  · rw [if_pos he, if_pos he]
    exact choose_bucket2_perm p2
      (nameInj_of_sublist h (fun a ha => List.mem_of_mem_filter ha))
  rw [if_neg he, if_neg he]
  rw [perm_all p1 (fun c => decide (c.area < TINY_FRONT_AREA)), perm_isEmpty pnt]
  by_cases hcond : ((l₂.filter (fun c => c.bucket == 1)).all
        (fun c => decide (c.area < TINY_FRONT_AREA))
      && !((l₂.filter (fun c => c.bucket != 1)).filter
        (fun c => decide (c.area ≥ TINY_FRONT_AREA))).isEmpty) = true
  · rw [if_pos hcond, if_pos hcond]
    exact choose_bucket2_perm pnt
      (nameInj_of_sublist h
        (fun a ha => List.mem_of_mem_filter (List.mem_of_mem_filter ha)))
  · rw [if_neg hcond, if_neg hcond]
    exact choose_bucket1_perm p1
      (nameInj_of_sublist h (fun a ha => List.mem_of_mem_filter ha))

/-- The first component of `select_best_cover` is exactly `bestOf`. -/
theorem select_fst (candidates : List CoverCandidate) (detail_lines : List String) :
    (select_best_cover candidates detail_lines).1 = bestOf candidates := by
  rw [select_best_cover]
  by_cases he : candidates.isEmpty
  · rw [if_pos he]
    have : candidates = [] := by simpa [List.isEmpty_iff] using he
    subst this
    rfl
  · rw [if_neg he]
    cases hb : bestOf candidates <;> simp

/-! ### Totality of the selector on non-empty input -/

theorem bestOf_some (cs : List CoverCandidate) (h : cs ≠ []) :
    ∃ w, bestOf cs = some w ∧ w ∈ cs := by
  simp only [bestOf]
  by_cases he : (bucket1Of cs).isEmpty
  · rw [if_pos he]
    have hb2 : bucket2Of cs = cs := by
      rw [bucket2Of]
      apply List.filter_eq_self.mpr
      intro a ha
      have hnil : bucket1Of cs = [] := List.isEmpty_iff.mp he
      have := List.filter_eq_nil_iff.mp hnil a ha
      simpa using this
    rw [hb2]
    exact choose_bucket2_mem cs h
  · rw [if_neg he]
    have hb1 : bucket1Of cs ≠ [] := by simpa [List.isEmpty_iff] using he
    by_cases hcond : ((bucket1Of cs).all (fun c => decide (c.area < TINY_FRONT_AREA))
        && !(nonTinyBucket2Of cs).isEmpty) = true
    · rw [if_pos hcond]
      have hnt : nonTinyBucket2Of cs ≠ [] := by
        have h2 := (Bool.and_eq_true _ _).mp hcond |>.2
        simpa [List.isEmpty_iff] using h2
      obtain ⟨w, hw, hwmem⟩ := choose_bucket2_mem _ hnt
      refine ⟨w, hw, ?_⟩
      have h1 := List.mem_filter.mp hwmem
      exact List.mem_of_mem_filter h1.1
    · rw [if_neg hcond]
      obtain ⟨w, hw, hwmem, _⟩ := choose_bucket1_spec _ hb1
      exact ⟨w, hw, List.mem_of_mem_filter hwmem⟩

/-! ### The report marker -/

theorem markedFor_self (b : CoverCandidate) (r : String) :
    markedFor b ("path=" ++ b.rel_display ++ r) = true := by
  rw [markedFor]
  have hpre : strStartsWith ("path=" ++ b.rel_display ++ r)
      ("path=" ++ b.rel_display) = true := by
    rw [strStartsWith, String.data_append]
    exact List.isPrefixOf_iff_prefix.mpr (List.prefix_append _ _)
  rw [hpre, Bool.or_true]

/-! ### Fidelity of the denominator-cleared comparisons -/

/-- The integer comparison of `is_squarish` agrees with the source's rational
form `(1 - pct) ≤ width/height ≤ (1 + pct)` whenever the guard admits the
dimensions. -/
theorem is_squarish_iff_ratio (w h : Nat) (hw : 0 < w) (hh : 0 < h) :
    is_squarish w h = true ↔
      (1 - SQUARISH_PCT / 100 ≤ (w : ℚ) / (h : ℚ) ∧
        (w : ℚ) / (h : ℚ) ≤ 1 + SQUARISH_PCT / 100) := by
  rw [is_squarish,
    if_neg (by simp [Nat.pos_iff_ne_zero.mp hw, Nat.pos_iff_ne_zero.mp hh]),
    decide_eq_true_eq]
  have hhq : (0 : ℚ) < (h : ℚ) := by exact_mod_cast hh
  have h100 : (0 : ℚ) < 100 := by norm_num
  have e1 : (1 : ℚ) - SQUARISH_PCT / 100 = 87 / 100 := by rw [SQUARISH_PCT]; norm_num
  have e2 : (1 : ℚ) + SQUARISH_PCT / 100 = 113 / 100 := by rw [SQUARISH_PCT]; norm_num
  rw [e1, e2, div_le_div_iff₀ h100 hhq, div_le_div_iff₀ hhq h100]
  constructor
  · rintro ⟨h1, h2⟩
    have h1n : (87 : Nat) * h ≤ 100 * w := h1
    have h2n : (100 : Nat) * w ≤ 113 * h := h2
    have h1q : (87 : ℚ) * h ≤ 100 * w := by exact_mod_cast h1n
    have h2q : (100 : ℚ) * w ≤ 113 * h := by exact_mod_cast h2n
    exact ⟨by linarith, by linarith⟩
  · rintro ⟨h1, h2⟩
    have h1q : (87 : ℚ) * h ≤ 100 * w := by linarith
    have h2q : (100 : ℚ) * w ≤ 113 * h := by linarith
    have h1n : (87 : Nat) * h ≤ 100 * w := by exact_mod_cast h1q
    have h2n : (100 : Nat) * w ≤ 113 * h := by exact_mod_cast h2q
    exact ⟨h1n, h2n⟩

/-- The integer comparison of `overlap_pct_ok` agrees with the source's
rational gate `overlap * 100 >= ALBUM_OVERLAP_PCT`. -/
theorem overlap_pct_ok_iff (base album : List String) :
    overlap_pct_ok base album = true ↔
      ALBUM_OVERLAP_PCT ≤ album_overlap_ratio base album * 100 := by
  rw [overlap_pct_ok, album_overlap_ratio, ALBUM_OVERLAP_PCT]
  by_cases he : album.isEmpty
  · rw [if_pos he, if_pos he]
    norm_num
  · rw [if_neg he, if_neg he]
    have hn : 0 < album.length := by
      cases album with
      | nil => simp at he
      | cons a t => simp
    have hnq : (0 : ℚ) < (album.length : ℚ) := by exact_mod_cast hn
    rw [decide_eq_true_eq]
    set s : Nat := token_overlap_score base album with hs
    rcases le_total ((s : ℚ) / (album.length : ℚ)) 1 with hle | hle
    · rw [min_eq_right hle, div_mul_eq_mul_div, le_div_iff₀ hnq]
      constructor
      · intro h
        have : ((50 * album.length : Nat) : ℚ) ≤ ((100 * s : Nat) : ℚ) := by
          exact_mod_cast h
        push_cast at this ⊢
        linarith
      · intro h
        have : (50 : ℚ) * album.length ≤ 100 * s := by push_cast at h ⊢; linarith
        exact_mod_cast this
    · rw [min_eq_left hle]
      have hsl : (album.length : ℚ) ≤ (s : ℚ) := by
        rw [le_div_iff₀ hnq] at hle
        linarith
      have hsln : album.length ≤ s := by exact_mod_cast hsl
      constructor
      · intro _
        norm_num
      · intro _
        calc 50 * album.length ≤ 50 * s := by
              exact Nat.mul_le_mul_left 50 hsln
          _ ≤ 100 * s := by
              exact Nat.mul_le_mul_right s (by norm_num)

/-! ### The claims -/

/-- C1: whenever bucket 1 is non-empty but every bucket-1 candidate's area is
strictly below the tiny-front floor (90000), and some bucket-2 candidate's
area is at or above the floor, `select_best_cover` returns a winner from the
non-tiny bucket-2 subset: a candidate outside bucket 1 with area at or above
the floor. -/
theorem claim_c1 (cs : List CoverCandidate) (ls : List String)
    (h1 : bucket1Of cs ≠ [])
    (h2 : ∀ c ∈ bucket1Of cs, c.area < TINY_FRONT_AREA)
    (h3 : ∃ c ∈ bucket2Of cs, TINY_FRONT_AREA ≤ c.area) :
    ∃ w, (select_best_cover cs ls).1 = some w ∧ w ∈ nonTinyBucket2Of cs ∧
      w.bucket ≠ 1 ∧ TINY_FRONT_AREA ≤ w.area := by
  rw [select_fst]
  simp only [bestOf]
  rw [if_neg (fun hh => h1 (List.isEmpty_iff.mp hh))]
  have hall : (bucket1Of cs).all (fun c => decide (c.area < TINY_FRONT_AREA)) = true :=
    List.all_eq_true.mpr (fun c hc => decide_eq_true (h2 c hc))
  have hnt : nonTinyBucket2Of cs ≠ [] := by
    obtain ⟨c, hc, hcA⟩ := h3
    exact List.ne_nil_of_mem (List.mem_filter.mpr ⟨hc, decide_eq_true hcA⟩)
  have hcond : ((bucket1Of cs).all (fun c => decide (c.area < TINY_FRONT_AREA))
      && !(nonTinyBucket2Of cs).isEmpty) = true := by
    rw [hall, Bool.true_and, Bool.not_eq_true']
    exact Bool.eq_false_iff.mpr (fun hh => hnt (List.isEmpty_iff.mp hh))
  rw [if_pos hcond]
  obtain ⟨w, hw, hwmem⟩ := choose_bucket2_mem _ hnt
  refine ⟨w, hw, hwmem, ?_, ?_⟩
  · have hb2 := (List.mem_filter.mp (List.mem_filter.mp hwmem).1).2
    simpa using hb2
  · exact of_decide_eq_true (List.mem_filter.mp hwmem).2

/-- C1 at a concrete input: a tiny 100×100 bucket-1 cover loses to a
1000×1000 bucket-2 image. -/
theorem claim_c1_witness :
    ∃ w, (select_best_cover [tinyFront, bigBack] []).1 = some w ∧
      w ∈ nonTinyBucket2Of [tinyFront, bigBack] ∧ w.bucket ≠ 1 ∧
      TINY_FRONT_AREA ≤ w.area :=
  claim_c1 [tinyFront, bigBack] [] (by decide) (by decide) (by decide)

/-- C2: when bucket 1 is non-empty and the tiny-front fallback does not
trigger, the winner is a bucket-1 candidate whose `choose_bucket1` key
`(-area, scope_rank, kw_rank, trailing suffix, name)` is minimal over
bucket 1. -/
theorem claim_c2 (cs : List CoverCandidate) (ls : List String)
    (h1 : bucket1Of cs ≠ [])
    (h2 : ¬((∀ c ∈ bucket1Of cs, c.area < TINY_FRONT_AREA) ∧ nonTinyBucket2Of cs ≠ [])) :
    ∃ w, (select_best_cover cs ls).1 = some w ∧ w ∈ bucket1Of cs ∧
      ∀ c ∈ bucket1Of cs, key1 w ≤ key1 c := by
  rw [select_fst]
  simp only [bestOf]
  rw [if_neg (fun hh => h1 (List.isEmpty_iff.mp hh))]
  have hcond : ((bucket1Of cs).all (fun c => decide (c.area < TINY_FRONT_AREA))
      && !(nonTinyBucket2Of cs).isEmpty) = false := by
    by_cases hall : ∀ c ∈ bucket1Of cs, c.area < TINY_FRONT_AREA
    · have hnt : nonTinyBucket2Of cs = [] := by
        by_contra hne2
        exact h2 ⟨hall, hne2⟩
      rw [hnt]
      simp
    · have hfa : (bucket1Of cs).all (fun c => decide (c.area < TINY_FRONT_AREA)) = false := by
        apply Bool.eq_false_iff.mpr
        intro hh
        exact hall (fun c hc => of_decide_eq_true (List.all_eq_true.mp hh c hc))
      rw [hfa, Bool.false_and]
  rw [if_neg (by rw [hcond]; exact Bool.false_ne_true)]
  exact choose_bucket1_spec _ h1

/-- C2 at the Grease list: the 6452×3172 `front.png` beats the embedded
500×500 cover although the latter has the better scope rank. -/
theorem claim_c2_witness :
    (∃ w, (select_best_cover greaseList []).1 = some w ∧ w ∈ bucket1Of greaseList ∧
      ∀ c ∈ bucket1Of greaseList, key1 w ≤ key1 c) ∧
    (select_best_cover greaseList []).1 = some greaseFront :=
  ⟨claim_c2 greaseList [] (by decide) (by decide), by decide⟩

/-- C3: when squarish bucket-2 candidates exist and their areas are within
the 75% closeness band, `choose_bucket2` returns the squarish candidate
minimal under the area-free key `(scope_rank, -name_token_score, kw_rank,
trailing suffix, name)`. -/
theorem claim_c3 (lst : List CoverCandidate)
    (h1 : lst.filter (fun c => is_squarish c.width c.height) ≠ [])
    (h2 : minAreaOf (lst.filter (fun c => is_squarish c.width c.height)) * 100 ≥
      maxAreaOf (lst.filter (fun c => is_squarish c.width c.height)) * AREA_THRESHOLD_PCT) :
    ∃ w, choose_bucket2 lst = some w ∧
      w ∈ lst.filter (fun c => is_squarish c.width c.height) ∧
      ∀ c ∈ lst.filter (fun c => is_squarish c.width c.height),
        key2close w ≤ key2close c :=
  choose_bucket2_close_spec lst h1 h2

/-- C3 at a concrete input: of two squarish bucket-2 candidates within the
75% band and equal scope and keyword rank, the smaller 900×900 image with
the higher name-token score beats the 1000×1000 one. -/
theorem claim_c3_witness :
    (∃ w, choose_bucket2 [sqSmallRich, sqBigPoor] = some w ∧
      w ∈ [sqSmallRich, sqBigPoor].filter (fun c => is_squarish c.width c.height) ∧
      ∀ c ∈ [sqSmallRich, sqBigPoor].filter (fun c => is_squarish c.width c.height),
        key2close w ≤ key2close c) ∧
    choose_bucket2 [sqSmallRich, sqBigPoor] = some sqSmallRich :=
  ⟨claim_c3 [sqSmallRich, sqBigPoor] (by decide) (by decide), by decide⟩

/-- C4 counterexample: two distinct candidates (different width/height and
display path) that agree on every sort-key field — same name `a.jpg`, same
area, scope rank, ranks — make the winner depend on input order: the
earlier of the two always wins, so a permutation changes the winner. -/
theorem claim_c4_counterexample :
    (select_best_cover [dupX, dupY] []).1 = some dupX ∧
    (select_best_cover [dupY, dupX] []).1 = some dupY ∧
    dupX ≠ dupY ∧ ([dupX, dupY].Perm [dupY, dupX]) :=
  ⟨by decide, by decide, by decide, List.Perm.swap dupY dupX []⟩

/-- C4 (amended): `select_best_cover` is a pure function, so repeated calls
return the same winner; and the winner is invariant under every permutation
of the candidate list provided no two distinct candidates share a filename
(the final tie-break component of every sort key), which makes all sort keys
injective. With duplicated full keys the winner follows input order. -/
theorem claim_c4 (cs₁ cs₂ : List CoverCandidate) (ls : List String)
    (hp : cs₁.Perm cs₂) (hinj : NameInj cs₁) :
    (select_best_cover cs₁ ls).1 = (select_best_cover cs₂ ls).1 := by
  rw [select_fst, select_fst]
  exact bestOf_perm hp hinj

/-- C4 at a concrete input: swapping two distinctly-named candidates leaves
the winner unchanged. -/
theorem claim_c4_witness :
    (select_best_cover [tinyFront, bigBack] []).1 =
      (select_best_cover [bigBack, tinyFront] []).1 :=
  claim_c4 [tinyFront, bigBack] [bigBack, tinyFront] []
    (List.Perm.swap bigBack tinyFront []) (by decide)

/-- C6: on the four bucket-2 candidates 500×500, 641×500, 1009×500 and
507×500 (equal scope, no keyword or name signal), the winner is the 500×500
candidate: only the two near-square images survive the squarish filter,
their areas are within the 75% band so area is ignored, and the trailing
numeric suffix of `image1.jpeg` beats `image4.jpeg` — no aspect-ratio
comparator appears in any sort key. -/
theorem claim_c6 :
    (select_best_cover [gn1, gn2, gn3, gn4] []).1 = some gn1 ∧
    [gn1, gn2, gn3, gn4].filter (fun c => is_squarish c.width c.height) = [gn1, gn4] ∧
    minAreaOf [gn1, gn4] * 100 ≥ maxAreaOf [gn1, gn4] * AREA_THRESHOLD_PCT ∧
    extract_trailing_int "image1.jpeg" = some 1 ∧
    extract_trailing_int "image4.jpeg" = some 4 := by
  refine ⟨by decide, by decide, by decide, by decide, by decide⟩

/-- C5: in the Analyzer's bucket assignment, a filename token that is a
disqualifying non-front word and is not an album token forces bucket 2 —
regardless of shape and of any preferred keyword also present — while
disqualifying tokens that are themselves album tokens never block. -/
theorem claim_c5 (fname : String) (w h : Nat) (album toks album2 : List String)
    (hA : ∃ t ∈ base_tokens_of fname, t ∈ NON_FRONT_IMAGE_KEYWORDS ∧ t ∉ album)
    (hB : ∀ t ∈ toks, t ∈ NON_FRONT_IMAGE_KEYWORDS → t ∈ album2) :
    analyze_bucket fname w h album = 2 ∧
      has_blocking_non_front toks album2 = false := by
  constructor
  · have hnf : has_blocking_non_front (base_tokens_of fname) album = true := by
      obtain ⟨t, ht, h1, h2⟩ := hA
      rw [has_blocking_non_front, List.any_eq_true]
      refine ⟨t, ht, ?_⟩
      have hc1 : NON_FRONT_IMAGE_KEYWORDS.contains t = true := by simpa using h1
      have hc2 : album.contains t = false := by simpa using h2
      rw [hc1, hc2]
      rfl
    rw [analyze_bucket]
    simp only [bucket_from_tokens]
    rw [hnf]
    simp
  · rw [has_blocking_non_front]
    apply Bool.eq_false_iff.mpr
    intro hh
    obtain ⟨t, ht, htc⟩ := List.any_eq_true.mp hh
    have hand := Bool.and_eq_true _ _ |>.mp htc
    have h1 : t ∈ NON_FRONT_IMAGE_KEYWORDS := by simpa using hand.1
    have h2 : t ∉ album2 := by
      intro hmem
      have hc := hand.2
      have : album2.contains t = true := by simpa using hmem
      rw [this] at hc
      simp at hc
    exact h2 (hB t ht h1)

/-- C5 at a concrete input: `back cover.jpg` lands in bucket 2 despite the
`cover` keyword, and `back` does not block when the album itself is named
`back`. -/
theorem claim_c5_witness :
    analyze_bucket "back cover.jpg" 500 500 [] = 2 ∧
      has_blocking_non_front ["back"] ["back"] = false :=
  claim_c5 "back cover.jpg" 500 500 [] ["back"] ["back"] (by decide) (by decide)

/-- C7 counterexample: the code tokenizes filenames with
`normalize_name_tokens` only — the numeric/short/audio-extension discard of
`clean_album_tokens` is never applied to filenames.  For `cd cover.jpg` the
code keeps the length-2 token `cd`, a blocking non-front word, and assigns
bucket 2 to a squarish 500×500 image; under the claimed (album-style)
tokenization `cd` would be discarded and the bucket would be 1. -/
theorem claim_c7_counterexample :
    base_tokens_of "cd cover.jpg" = ["cd", "cover"] ∧
    specFilenameTokens "cd cover.jpg" = ["cover"] ∧
    base_tokens_of "cd cover.jpg" ≠ specFilenameTokens "cd cover.jpg" ∧
    analyze_bucket "cd cover.jpg" 500 500 [] = 2 ∧
    specAnalyzeBucket "cd cover.jpg" 500 500 [] = 1 :=
  ⟨by decide, by decide, by decide, by decide, by decide⟩

/-- C7 (amended): the filename (lower-cased, extension stripped) is tokenized
by camel-split / non-alphanumeric-to-space / lower-case only; the
numeric / length-≤2 / audio-extension discard applies only to album tokens.
When no filename token is discardable the two tokenizations coincide and the
analyzer's bucket equals the spec-described one. -/
theorem claim_c7 (fname : String) (w h : Nat) (album : List String)
    (hkeep : ∀ t ∈ base_tokens_of fname, keepTok t = true) :
    base_tokens_of fname = specFilenameTokens fname ∧
    analyze_bucket fname w h album = specAnalyzeBucket fname w h album := by
  have ht : specFilenameTokens fname = base_tokens_of fname := by
    rw [specFilenameTokens, clean_album_tokens]
    exact List.filter_eq_self.mpr (fun a ha => hkeep a ha)
  exact ⟨ht.symm, by rw [analyze_bucket, specAnalyzeBucket, ht]⟩

/-- C7 at a concrete input: for `cover.jpg` (no discardable token) the two
tokenizations and buckets agree. -/
theorem claim_c7_witness :
    base_tokens_of "cover.jpg" = specFilenameTokens "cover.jpg" ∧
    analyze_bucket "cover.jpg" 500 500 [] = specAnalyzeBucket "cover.jpg" 500 500 [] :=
  claim_c7 "cover.jpg" 500 500 [] (by decide)

/-- C8: `select_best_cover` returns no winner exactly on the empty candidate
list; there the metadata string is empty and the report is the single
`no images found` line, and on every non-empty list the winner is one of the
input candidates. -/
theorem claim_c8 (cs : List CoverCandidate) (ls : List String) :
    ((select_best_cover cs ls).1 = none ↔ cs = []) ∧
    (cs = [] → (select_best_cover cs ls).2.1 = "" ∧
      (select_best_cover cs ls).2.2 = "[ ] no images found") ∧
    (cs ≠ [] → ∃ w, (select_best_cover cs ls).1 = some w ∧ w ∈ cs) := by
  refine ⟨⟨?_, ?_⟩, ?_, ?_⟩
  · intro hn
    by_contra hne
    obtain ⟨w, hw, _⟩ := bestOf_some cs hne
    rw [select_fst, hw] at hn
    exact Option.noConfusion hn
  · intro he
    subst he
    rfl
  · intro he
    subst he
    exact ⟨rfl, rfl⟩
  · intro hne
    obtain ⟨w, hw, hmem⟩ := bestOf_some cs hne
    exact ⟨w, by rw [select_fst]; exact hw, hmem⟩

/-- C9 counterexample: the winner's line is recognized by the prefix test
`line.startswith("path=" + rel_display)`, which over-matches: with winner
`a.jpg` and a second candidate displaying as `a.jpg/b.png` (a directory
literally named `a.jpg`), both analysis lines receive the `[*]` marker, so
not every other line carries the neutral marker. -/
theorem claim_c9_counterexample :
    (select_best_cover [cexWin, cexSub] [cexLineA, cexLineB]).1 = some cexWin ∧
    (select_best_cover [cexWin, cexSub] [cexLineA, cexLineB]).2.2 =
      "[*] " ++ cexLineA ++ "\n" ++ "[*] " ++ cexLineB ∧
    cexSub ≠ cexWin ∧
    cexLineB = "path=" ++ cexSub.rel_display ++
      " res=10x8 area=0.0MP size=0.0MB bucket=2 scope=album-root kw=0 overlap=0.00" := by
  set_option maxRecDepth 8192 in
  exact ⟨by decide, by decide, by decide, by decide⟩

/-- C9 (amended): the report re-emits every analysis line in order; the
winner's own line always carries `[*]`, and a non-winner's line carries
`[ ]` provided its line does not begin with `path=` + the winner's
`rel_display` and (for an embedded winner) does not contain `EMBEDDED` — so
in the absence of such display-path collisions exactly the winner's line is
marked. -/
theorem claim_c9 (cs : List CoverCandidate) (rest : CoverCandidate → String)
    (w : CoverCandidate)
    (hw : (select_best_cover cs (cs.map (detailLineOf rest))).1 = some w)
    (h1 : ∀ c ∈ cs, c ≠ w →
      strStartsWith (detailLineOf rest c) ("path=" ++ w.rel_display) = false)
    (h2 : w.is_embedded = true → ∀ c ∈ cs, c ≠ w →
      strContainsSub (detailLineOf rest c) "EMBEDDED" = false) :
    (select_best_cover cs (cs.map (detailLineOf rest))).2.2 =
      String.intercalate "\n" (cs.map (fun c =>
        (if c = w then "[*] " else "[ ] ") ++ detailLineOf rest c)) := by
  have hne : cs ≠ [] := by
    intro hnil
    subst hnil
    simp [select_best_cover] at hw
  have hbest : bestOf cs = some w := by
    rw [← select_fst cs (cs.map (detailLineOf rest))]
    exact hw
  rw [select_best_cover, if_neg (fun hh => hne (List.isEmpty_iff.mp hh)), hbest]
  show detailOf w (cs.map (detailLineOf rest)) = _
  rw [detailOf]
  have hmapne : ((cs.map (detailLineOf rest)).map (fun line =>
      if markedFor w line then "[*] " ++ line else "[ ] " ++ line)).isEmpty = false := by
    cases cs with
    | nil => exact absurd rfl hne
    | cons a t => rfl
  rw [if_neg (by rw [hmapne]; exact Bool.false_ne_true)]
  rw [List.map_map]
  congr 1
  apply List.map_congr_left
  intro c hc
  simp only [Function.comp]
  by_cases hcw : c = w
  · subst hcw
    have hmk : markedFor c (detailLineOf rest c) = true := markedFor_self c (rest c)
    simp [hmk]
  · have hmk : markedFor w (detailLineOf rest c) = false := by
      rw [markedFor]
      cases hemb : w.is_embedded with
      | false => simp [h1 c hc hcw]
      | true => simp [h1 c hc hcw, h2 hemb c hc hcw]
    simp [hmk, hcw]

/-- C9 at a concrete collision-free input: exactly the winner's line gets
`[*]`. -/
theorem claim_c9_witness :
    (select_best_cover [repA, repB] ([repA, repB].map (detailLineOf c9restA))).2.2 =
      String.intercalate "\n" ([repA, repB].map (fun c =>
        (if c = repA then "[*] " else "[ ] ") ++ detailLineOf c9restA c)) :=
  claim_c9 [repA, repB] c9restA repA (by decide) (by decide) (by decide)

/-! ### Helpers for the trailing-integer claim -/

theorem dropWhile_head_not {α : Type _} (p : α → Bool) :
    ∀ (l : List α) (d : α) (rest : List α), l.dropWhile p = d :: rest → p d = false := by
  intro l
  induction l with
  | nil =>
    intro d rest h
    simp at h
  | cons a t ih =>
    intro d rest h
    rw [List.dropWhile_cons] at h
    by_cases hp : p a = true
    · rw [if_pos hp] at h
      exact ih d rest h
    · rw [if_neg hp] at h
      cases h
      exact Bool.eq_false_iff.mpr hp

theorem dropWhile_append_of_all {α : Type _} (p : α → Bool) (l₁ l₂ : List α)
    (h : ∀ x ∈ l₁, p x = true) : (l₁ ++ l₂).dropWhile p = l₂.dropWhile p := by
  induction l₁ with
  | nil => rfl
  | cons a t ih =>
    rw [List.cons_append, List.dropWhile_cons, if_pos (h a (List.mem_cons_self _ _))]
    exact ih (fun x hx => h x (List.mem_cons_of_mem _ hx))

theorem takeWhile_append_of_all {α : Type _} (p : α → Bool) (l₁ l₂ : List α)
    (h : ∀ x ∈ l₁, p x = true) : (l₁ ++ l₂).takeWhile p = l₁ ++ l₂.takeWhile p := by
  induction l₁ with
  | nil => rfl
  | cons a t ih =>
    rw [List.cons_append, List.takeWhile_cons, if_pos (h a (List.mem_cons_self _ _)),
      ih (fun x hx => h x (List.mem_cons_of_mem _ hx))]
    rfl

theorem extract_eq_none (s : String) (hs : ∀ c ∈ s.data, c.isDigit = false) :
    extract_trailing_int s = none := by
  simp only [extract_trailing_int]
  have hd : s.data.reverse.dropWhile (fun c => !c.isDigit) = [] := by
    apply List.dropWhile_eq_nil_iff.mpr
    intro x hx
    simp [hs x (List.mem_reverse.mp hx)]
  rw [hd]
  rfl

theorem extract_is_some (t : String) (ht : ∃ c ∈ t.data, c.isDigit = true) :
    ∃ n, extract_trailing_int t = some n := by
  simp only [extract_trailing_int]
  obtain ⟨c, hc, hcd⟩ := ht
  cases hd : t.data.reverse.dropWhile (fun c => !c.isDigit) with
  | nil =>
    have := List.dropWhile_eq_nil_iff.mp hd c (List.mem_reverse.mpr hc)
    rw [hcd] at this
    simp at this
  | cons d rest =>
    have hdd : (fun c => !c.isDigit) d = false := dropWhile_head_not _ _ d rest hd
    have hdig : d.isDigit = true := by simpa using hdd
    rw [List.takeWhile_cons, if_pos (show (fun c => c.isDigit) d = true from hdig)]
    exact ⟨_, by rw [if_neg (by simp)]⟩

/-- C10: at the trailing-suffix position of the sort keys, a name without
digits compares strictly greater than any name with a digit (the absent
suffix acts as +∞); and for a name whose characters split as
`pre ++ ds ++ post` with `ds` a maximal nonempty digit run and no digit in
`post`, the extracted value is the numeric value of `ds` — the last digit
run anywhere in the full name, extension included. -/
theorem claim_c10 (s t : String) (pre ds post : List Char)
    (hs : ∀ c ∈ s.data, c.isDigit = false)
    (ht : ∃ c ∈ t.data, c.isDigit = true)
    (hds : ds ≠ [])
    (hdig : ∀ c ∈ ds, c.isDigit = true)
    (hpost : ∀ c ∈ post, c.isDigit = false)
    (hpre : pre = [] ∨ ∃ l c, pre = l ++ [c] ∧ c.isDigit = false) :
    toLex (trailing_key t) < toLex (trailing_key s) ∧
    extract_trailing_int (String.mk (pre ++ ds ++ post)) = some (digitsVal ds) := by
  constructor
  · have hsn : extract_trailing_int s = none := extract_eq_none s hs
    obtain ⟨n, htn⟩ := extract_is_some t ht
    simp only [trailing_key]
    rw [hsn, htn]
    exact Prod.Lex.left _ _ (by norm_num)
  · simp only [extract_trailing_int]
    have hrev : (String.mk (pre ++ ds ++ post)).data.reverse =
        post.reverse ++ (ds.reverse ++ pre.reverse) := by
      show (pre ++ ds ++ post).reverse = _
      rw [List.reverse_append, List.reverse_append]
    rw [hrev,
      dropWhile_append_of_all _ _ _
        (fun x hx => by simp [hpost x (List.mem_reverse.mp hx)])]
    obtain ⟨d, ds', hds'⟩ : ∃ d ds', ds.reverse = d :: ds' := by
      cases hr : ds.reverse with
      | nil =>
        have : ds = [] := by simpa using congrArg List.reverse hr
        exact absurd this hds
      | cons d u => exact ⟨d, u, rfl⟩
    have hmem_ds : ∀ x ∈ d :: ds', x ∈ ds := by
      intro x hx
      rw [← List.mem_reverse, hds']
      exact hx
    have hd_dig : d.isDigit = true := hdig d (hmem_ds d (List.mem_cons_self _ _))
    rw [hds', List.cons_append, List.dropWhile_cons]
    have hin : (!d.isDigit) = false := by simp [hd_dig]
    rw [hin, if_neg Bool.false_ne_true]
    rw [List.takeWhile_cons, if_pos (show (fun c => c.isDigit) d = true from hd_dig)]
    rw [takeWhile_append_of_all _ _ _
      (fun x hx => hdig x (hmem_ds x (List.mem_cons_of_mem _ hx)))]
    have hpre_take : pre.reverse.takeWhile (fun c => c.isDigit) = [] := by
      rcases hpre with hnil | ⟨l, c, hlc, hcd⟩
      · rw [hnil]
        rfl
      · rw [hlc, List.reverse_append]
        simp only [List.reverse_cons, List.reverse_nil, List.nil_append,
          List.singleton_append, List.takeWhile_cons]
        rw [if_neg (by simp [hcd])]
    rw [hpre_take, List.append_nil]
    have hds_eq : (d :: ds').reverse = ds := by
      rw [← hds', List.reverse_reverse]
    rw [if_neg (by simp)]
    rw [hds_eq]

/-- C10 at concrete inputs: `a1b` sorts before `abc` at the trailing-key
position, and the last digit run of `x42png` is 42. -/
theorem claim_c10_witness :
    toLex (trailing_key "a1b") < toLex (trailing_key "abc") ∧
    extract_trailing_int (String.mk (['x'] ++ ['4', '2'] ++ ['p', 'n', 'g'])) =
      some (digitsVal ['4', '2']) :=
  claim_c10 "abc" "a1b" ['x'] ['4', '2'] ['p', 'n', 'g'] (by decide) (by decide)
    (by decide) (by decide) (by decide) (Or.inr ⟨[], 'x', rfl, by decide⟩)

end MpvMusic
